import Mathlib

/-!
Verification development for the reddit-scraper Flask application (`src/app.py`).

The shallow embedding below translates the pieces of the program that the
claims are about:

* the daily-anchored Pushshift pagination engine
  (`iter_pushshift_ids_daily_anchored`, app.py lines 81-177);
* the worker that drives the engine, hydrates every discovered id and writes
  CSV rows (`run_scrape_job`, lines 234-321), including the broken retrieval
  of the generator's return value (lines 296-303);
* the CSV row assembly (`write_submission_row`,
  `write_submission_with_comments`, lines 181-230);
* the Flask routes `start_job`, `job_status`, `download_job`, the registry
  update helper `safe_set`, the retention sweep `cleanup`, and the date
  validation `parse_date` (lines 57-61, 328-385).

Network traffic is modelled by explicit oracles: the Pushshift upstream is a
stream of pages that each fetch consumes one of (an exhausted stream, a
failed fetch and an empty `data` array all make the code break out of the
page loop, so they are modelled alike as an empty page), and PRAW hydration
is a function from a submission id to an optional submission record.
Python ints are modelled as `Int` (timestamps) and `Nat` (counters).
-/

/-- Module constant `DAILY_CHUNK_SECONDS` (app.py line 31, default 86400). -/
def DAILY_CHUNK_SECONDS : Int := 86400

/-- Module constant `JOB_RETENTION_SECONDS` (app.py line 21). -/
def JOB_RETENTION_SECONDS : Int := 3600

/-- Module constant `PUSHSHIFT_DAILY_ATTEMPTS` (app.py line 34, default 2). -/
def PUSHSHIFT_DAILY_ATTEMPTS : Nat := 2

/-- Module constant `LISTING_CAP_WITH_COMMENTS` (app.py line 17). -/
def LISTING_CAP_WITH_COMMENTS : Nat := 1000

/-- Module constant `LISTING_CAP_POSTS_ONLY` (app.py line 18). -/
def LISTING_CAP_POSTS_ONLY : Nat := 2500

/-- One element of a Pushshift `data` array: `d.get("id")` and
`d.get("created_utc")` may each be absent (app.py line 135). -/
structure RawItem where
  id : Option String
  created_utc : Option Int
deriving DecidableEq, Repr

/-- One Pushshift response page (its `data` array).  The `[]` page also
stands for a failed fetch or a missing `data` key: all three make the code
take the `break` at app.py line 129. -/
abbrev Page := List RawItem

/-- The mutable local state of `iter_pushshift_ids_daily_anchored`:
`yields` is the sequence already produced by the generator, `seen` is
`day_fetched_ids`, `emitted`, `minSeen` is `min_seen_ts`, `newCnt` is
`new_data_emitted`, `success` is `day_successful_data_fetch`, `capped`
records that the bare `return` at app.py line 149 was taken, and
`emptyDays`/`totalDays` are the day-gap counters. -/
structure EngSt where
  yields : List (String × Int)
  seen : List String
  emitted : Nat
  minSeen : Option Int
  newCnt : Nat
  success : Bool
  capped : Bool
  emptyDays : Nat
  totalDays : Nat
deriving DecidableEq, Repr

/-- The `for d in data` body (app.py lines 134-149).  `d.get("id")` is falsy
when absent or the empty string, `d.get("created_utc")` when absent or zero;
items outside `[day_start_ts, current_end_ts]` and ids already in
`day_fetched_ids` are skipped; a kept item is yielded, marked seen, counted,
and the running minimum timestamp updated; reaching `max_results` takes the
bare `return` (modelled by the `capped` flag, which every outer loop obeys). -/
def psProcessItems (dayStart chunkEnd : Int) (maxResults : Nat) :
    List RawItem → EngSt → EngSt
  | [], st => st
  | d :: ds, st =>
    let sid := d.id.getD ""
    let cu := d.created_utc.getD 0
    if sid = "" ∨ cu = 0 then psProcessItems dayStart chunkEnd maxResults ds st
    else if cu < dayStart ∨ cu > chunkEnd then
      psProcessItems dayStart chunkEnd maxResults ds st
    else if sid ∈ st.seen then psProcessItems dayStart chunkEnd maxResults ds st
    else
      let st1 : EngSt :=
        { st with
          yields := st.yields ++ [(sid, cu)]
          seen := sid :: st.seen
          emitted := st.emitted + 1
          newCnt := st.newCnt + 1
          success := true
          minSeen := some (match st.minSeen with
            | none => cu
            | some m => if cu < m then cu else m) }
      if maxResults ≤ st1.emitted then { st1 with capped := true }
      else psProcessItems dayStart chunkEnd maxResults ds st1

/-- The pagination loop of one chunk attempt (app.py lines 108-159):
`while emitted < max_results and cursor_before_ts >= day_start_ts`, fetch a
page (consuming the head of the upstream stream; an exhausted stream or an
empty page breaks), process its items, then either break (cap, no new
anchor, or no new item) or move the cursor to `min_seen_ts - 1` and repage.
Returns the final state, the remaining upstream stream, and the final
cursor. -/
def psPageLoop (dayStart chunkEnd : Int) (maxResults : Nat) :
    List Page → Int → EngSt → EngSt × List Page × Int
  | pages, cursor, st =>
    if maxResults ≤ st.emitted ∨ cursor < dayStart then (st, pages, cursor)
    else
      match pages with
      | [] => (st, [], cursor)
      | p :: ps =>
        if p.isEmpty then (st, ps, cursor)
        else
          let st1 := psProcessItems dayStart chunkEnd maxResults p
            { st with newCnt := 0 }
          if st1.capped then (st1, ps, cursor)
          else
            match st1.minSeen with
            | none => (st1, ps, cursor)
            | some m =>
              if st1.newCnt = 0 then (st1, ps, cursor)
              else psPageLoop dayStart chunkEnd maxResults ps (m - 1) st1

/-- The `for attempt in range(PUSHSHIFT_DAILY_ATTEMPTS)` loop (app.py lines
103-167).  Each attempt resets `min_seen_ts` and `day_fetched_ids` (lines
104-105); the cursor `cursor_before_ts` is initialised once per chunk (line
99) and threaded through, exactly as in the source.  After an attempt the
loop stops on the cap `return` or on `day_successful_data_fetch`. -/
def psAttemptLoop (dayStart chunkEnd : Int) (maxResults : Nat) :
    Nat → List Page → Int → EngSt → EngSt × List Page × Int
  | 0, pages, cursor, st => (st, pages, cursor)
  | n + 1, pages, cursor, st =>
    let r := psPageLoop dayStart chunkEnd maxResults pages cursor
      { st with minSeen := none, seen := [] }
    if r.1.capped then r
    else if r.1.success then r
    else psAttemptLoop dayStart chunkEnd maxResults n r.2.1 r.2.2 r.1

/-- The spec's description of the attempt loop, in which every attempt
additionally resets its own page cursor to the chunk's upper bound
`chunkEnd`.  Declared only to be compared with `psAttemptLoop`, which
threads the cursor as the source does. -/
def psAttemptLoopSpecReset (dayStart chunkEnd : Int) (maxResults : Nat) :
    Nat → List Page → EngSt → EngSt × List Page
  | 0, pages, st => (st, pages)
  | n + 1, pages, st =>
    let r := psPageLoop dayStart chunkEnd maxResults pages chunkEnd
      { st with minSeen := none, seen := [] }
    if r.1.capped then (r.1, r.2.1)
    else if r.1.success then (r.1, r.2.1)
    else psAttemptLoopSpecReset dayStart chunkEnd maxResults n r.2.1 r.1

/-- The outer `while current_end_ts >= after_ts and emitted < max_results`
chunk loop (app.py lines 93-174), written with an explicit iteration bound:
each iteration moves `current_end_ts` to `day_start_ts - 1 < current_end_ts`,
so `(current_end_ts + 1 - after_ts).toNat` bounds the number of iterations
and the caller passes it as `fuel` (see `psChunkLoop_fuel_stable`).  A chunk
increments `total_days`, resets `day_successful_data_fetch`, runs the
attempts, increments `empty_days` when no attempt yielded, and advances. -/
def psChunkLoop (after : Int) (maxResults attempts : Nat) :
    Nat → List Page → Int → EngSt → EngSt × List Page
  | 0, pages, _, st => (st, pages)
  | fuel + 1, pages, currentEnd, st =>
    if currentEnd < after ∨ maxResults ≤ st.emitted then (st, pages)
    else
      let dayStart := max after (currentEnd - DAILY_CHUNK_SECONDS + 1)
      let r := psAttemptLoop dayStart currentEnd maxResults attempts pages
        currentEnd { st with totalDays := st.totalDays + 1, success := false }
      if r.1.capped then (r.1, r.2.1)
      else
        let st3 := if r.1.success then r.1
          else { r.1 with emptyDays := r.1.emptyDays + 1 }
        psChunkLoop after maxResults attempts fuel r.2.1 (dayStart - 1) st3

/-- The generator's local state at entry (app.py lines 87-90). -/
def engInit : EngSt :=
  { yields := [], seen := [], emitted := 0, minSeen := none, newCnt := 0,
    success := false, capped := false, emptyDays := 0, totalDays := 0 }

/-- The observable outcome of one full run of the generator: the sequence of
`(id, created_utc)` pairs it yielded, the final day-gap counters, and
whether it ended through the cap `return` at app.py line 149 (in which case
its `StopIteration` value is `None`) rather than through the final
`return empty_days, total_days` at line 177. -/
structure EnumResult where
  yields : List (String × Int)
  emptyDays : Nat
  totalDays : Nat
  cappedEnd : Bool
deriving DecidableEq, Repr

/-- `iter_pushshift_ids_daily_anchored(sub, after_ts, before_ts, max_results)`
(app.py lines 81-177) over an upstream page stream. -/
def iter_pushshift_ids_daily_anchored (pages : List Page)
    (after_ts before_ts : Int) (max_results attempts : Nat) : EnumResult :=
  let r := psChunkLoop after_ts max_results attempts
    ((before_ts + 1 - after_ts).toNat) pages before_ts engInit
  { yields := r.1.yields, emptyDays := r.1.emptyDays,
    totalDays := r.1.totalDays, cappedEnd := r.1.capped }

/-- The value carried by the generator's `StopIteration`: `None` after the
cap `return` (line 149), otherwise the pair `(empty_days, total_days)`
(line 177). -/
def summaryValue (r : EnumResult) : Option (Nat × Nat) :=
  if r.cappedEnd then none else some (r.emptyDays, r.totalDays)

/-- `csv_escape` (app.py line 57): carriage returns and line feeds are
replaced by a single space.  Replacing a one-character substring is a
character-wise map. -/
def csv_escape (t : String) : String :=
  ⟨t.data.map fun c => if c = '\r' ∨ c = '\n' then ' ' else c⟩

/-- A top-level comment as delivered by PRAW after `replace_more(limit=0)`
and `comments.list()` (app.py lines 197-202). -/
structure RComment where
  id : String
  parent_id : String
  body : String
  author : String
  score : Int
  created_utc : Int
deriving DecidableEq, Repr

/-- A hydrated submission record.  `commentsResult` is `none` when fetching
or flattening the comment tree raises (app.py lines 204-208), in which case
the code falls back to the bare submission row. -/
structure Submission where
  id : String
  title : String
  selftext : String
  url : String
  author : String
  score : Int
  commentsResult : Option (List RComment)
deriving DecidableEq, Repr

/-- One CSV data row with the fixed 13-field schema (app.py lines 250-253). -/
structure Row where
  post_id : String
  post_title : String
  post_selftext : String
  post_url : String
  post_author : String
  post_score : String
  post_created_utc : String
  comment_id : String
  comment_parent_id : String
  comment_body : String
  comment_author : String
  comment_score : String
  comment_created_utc : String
deriving DecidableEq, Repr

/-- `write_submission_row(w, s, ts)` (app.py lines 181-186): one row with the
six comment fields empty. -/
def write_submission_row (s : Submission) (ts : String) : Row :=
  { post_id := s.id, post_title := csv_escape s.title,
    post_selftext := csv_escape s.selftext, post_url := csv_escape s.url,
    post_author := s.author, post_score := toString s.score,
    post_created_utc := ts,
    comment_id := "", comment_parent_id := "", comment_body := "",
    comment_author := "", comment_score := "", comment_created_utc := "" }

/-- One comment row of `write_submission_with_comments` (app.py lines
219-225): the submission's fields repeated next to the comment's fields. -/
def commentRowOf (s : Submission) (ts : String) (c : RComment) : Row :=
  { post_id := s.id, post_title := csv_escape s.title,
    post_selftext := csv_escape s.selftext, post_url := csv_escape s.url,
    post_author := s.author, post_score := toString s.score,
    post_created_utc := ts,
    comment_id := c.id, comment_parent_id := c.parent_id,
    comment_body := csv_escape c.body, comment_author := c.author,
    comment_score := toString c.score,
    comment_created_utc := toString c.created_utc }

/-- `write_submission_with_comments(w, s, ts)` (app.py lines 188-230): on a
comment-fetch failure or when no comment is found, exactly the bare
submission row; otherwise one row per top-level comment. -/
def write_submission_with_comments (s : Submission) (ts : String) : List Row :=
  match s.commentsResult with
  | none => [write_submission_row s ts]
  | some cs =>
    if cs.isEmpty then [write_submission_row s ts]
    else cs.map (commentRowOf s ts)

/-- The worker loop's mutable state inside `run_scrape_job` (app.py lines
255-293): the rows written so far, `count`, `cap_hit`, whether the `break`
at line 291 was taken (`broke`), the job's current `progress` field, the
full sequence of values the `progress` field has held (`trace`, starting
with the 0 stored at job creation, line 346), and the coverage trackers
`newest_dt_included` / `oldest_dt_included`. -/
structure WSt where
  rows : List Row
  count : Nat
  capHit : Bool
  broke : Bool
  progress : Nat
  trace : List Nat
  newest : Option Int
  oldest : Option Int
deriving DecidableEq, Repr

/-- The worker state when the `for sid, cu in gen` loop starts. -/
def workerInit : WSt :=
  { rows := [], count := 0, capHit := false, broke := false, progress := 0,
    trace := [0], newest := none, oldest := none }

/-- The `for sid, cu in gen` loop of `run_scrape_job` (app.py lines 267-293)
over the sequence the generator yields.  `hyd` is PRAW hydration: `none`
means fetching submission `sid` raised, which the `except` at line 292 turns
into a log line and a skip.  On success the coverage dates are tracked, the
rows for the item are appended, `count` is incremented, every tenth count
stores `progress = min(99, int(count / CAP * 100))` (line 289, exact integer
arithmetic here), and `count >= CAP` sets `cap_hit` and breaks. -/
def workerLoop (hyd : String → Option Submission) (CAP : Nat) (incl : Bool) :
    List (String × Int) → WSt → WSt
  | [], st => st
  | (sid, cu) :: rest, st =>
    match hyd sid with
    | none => workerLoop hyd CAP incl rest st
    | some s =>
      let newest := match st.newest with | none => some cu | some x => some x
      let count := st.count + 1
      let prog := if count % 10 = 0 then min 99 (count * 100 / CAP)
        else st.progress
      let trace := if count % 10 = 0 then st.trace ++ [prog] else st.trace
      let st1 : WSt :=
        { rows := st.rows ++
            (if incl then write_submission_with_comments s (toString cu)
             else [write_submission_row s (toString cu)]),
          count := count, capHit := st.capHit, broke := st.broke,
          progress := prog, trace := trace, newest := newest,
          oldest := some cu }
      if CAP ≤ count then { st1 with capHit := true, broke := true }
      else workerLoop hyd CAP incl rest st1

/-- The fields of the finished job record that the claims are about, as set
by the final `safe_set(job, state="done", progress=100, ...)` together with
the day-gap numbers interpolated into the final message (app.py lines
305-316). -/
structure JobOut where
  state : String
  count : Nat
  cap_hit : Bool
  empty_days : Nat
  total_days : Nat
  trace : List Nat
  rows : List Row
  newest : Option Int
  oldest : Option Int
deriving DecidableEq, Repr

/-- The success path of `run_scrape_job` (app.py lines 234-316) for a window
already converted to epoch seconds.  After the consuming loop, the code at
lines 296-303 tries to read the generator's `StopIteration` value: the block
runs only when the loop exited via `break` (an exhausted generator's
`gi_frame` is `None`), and it keeps `(0, 0)` unless that value is a truthy
2-tuple — after the cap `return` the value is `None`.  The yielded ids are
strings, so the `isinstance(sid, int)` branch at lines 270-272 never
fires. -/
def run_scrape_job (pages : List Page) (hyd : String → Option Submission)
    (after_ts before_ts : Int) (CAP : Nat) (incl : Bool) (attempts : Nat) :
    JobOut :=
  let gen := iter_pushshift_ids_daily_anchored pages after_ts before_ts CAP
    attempts
  let st := workerLoop hyd CAP incl gen.yields workerInit
  let days := if st.broke then (summaryValue gen).getD (0, 0) else (0, 0)
  { state := "done", count := st.count, cap_hit := st.capHit,
    empty_days := days.1, total_days := days.2,
    trace := st.trace ++ [100], rows := st.rows,
    newest := st.newest, oldest := st.oldest }

/-- A calendar date, the result of `parse_date(s).date()`. -/
structure PDate where
  y : Nat
  m : Nat
  d : Nat
deriving DecidableEq, Repr

/-- Python's Gregorian leap-year rule, used by `datetime` to validate the
day of month. -/
def isLeapYear (y : Nat) : Bool :=
  y % 4 == 0 && (y % 100 != 0 || y % 400 == 0)

/-- Days in a month, as `datetime` validates them. -/
def daysInMonth (y m : Nat) : Nat :=
  if m = 2 then (if isLeapYear y then 29 else 28)
  else if m = 4 ∨ m = 6 ∨ m = 9 ∨ m = 11 then 30
  else 31

/-- Decimal value of a digit sequence. -/
def digitsVal (s : List Char) : Nat :=
  s.foldl (fun a c => a * 10 + (c.toNat - '0'.toNat)) 0

/-- Whether every character is a decimal digit. -/
def allDigits (s : List Char) : Bool :=
  s.all fun c => '0' ≤ c && c ≤ '9'

/-- Splitting a character sequence at every occurrence of `sep`, as Python's
`str.split(sep)` does for a one-character separator. -/
def splitOnChar (sep : Char) : List Char → List (List Char)
  | [] => [[]]
  | x :: xs =>
    match splitOnChar sep xs with
    | [] => [[x]]
    | h :: t => if x = sep then [] :: h :: t else (x :: h) :: t

/-- The whitespace stripped by Python's `str.strip()`. -/
def isPySpace (c : Char) : Bool :=
  c = ' ' || c = '\t' || c = '\n' || c = '\r' || c = '\x0b' || c = '\x0c'

/-- Python's `str.strip()`. -/
def pyStrip (s : List Char) : List Char :=
  ((s.dropWhile isPySpace).reverse.dropWhile isPySpace).reverse

/-- `parse_date(s)` (app.py line 58): `datetime.strptime(s, "%Y-%m-%d")`.
CPython's `_strptime` matches `%Y` as exactly four digits, `%m` as one or
two digits valued 1-12, `%d` as one or two digits valued 1-31, requires the
whole string to be consumed, and `datetime` then checks the day against the
month's length and the year against `MINYEAR = 1`.  Failure raises
`ValueError`, modelled as `none`. -/
def parse_date (s : List Char) : Option PDate :=
  match splitOnChar '-' s with
  | [ys, ms, ds] =>
    if allDigits ys && allDigits ms && allDigits ds
        && ys.length == 4
        && decide (1 ≤ ms.length) && decide (ms.length ≤ 2)
        && decide (1 ≤ ds.length) && decide (ds.length ≤ 2) then
      let y := digitsVal ys
      let m := digitsVal ms
      let d := digitsVal ds
      if 1 ≤ y ∧ 1 ≤ m ∧ m ≤ 12 ∧ 1 ≤ d ∧ d ≤ daysInMonth y m then
        some ⟨y, m, d⟩
      else none
    else none
  | _ => none

/-- `date` comparison `a < b`, lexicographic on (year, month, day). -/
def dateLtB (a b : PDate) : Bool :=
  a.y < b.y || (a.y == b.y && (a.m < b.m || (a.m == b.m && a.d < b.d)))

/-- One entry of the `JOBS` registry (app.py lines 37, 346, 315-316, 321):
the fields of the job dict that the observation, download and cleanup code
reads.  `filename` is absent (`None`) until the job is done. -/
structure Job where
  state : String
  progress : Nat
  message : String
  filename : Option String
  created_at : Int
deriving DecidableEq, Repr

/-- The `JOBS` dict, as an association list keyed by job id. -/
abbrev Registry := List (String × Job)

/-- Dict lookup `JOBS.get(j)`. -/
def lookupJob : Registry → String → Option Job
  | [], _ => none
  | (k, v) :: rest, j => if k = j then some v else lookupJob rest j

/-- `safe_set(j, **u)` (app.py lines 59-61): under the registry lock, update
the entry only if `j in JOBS`; an absent id is silently ignored. -/
def safe_set (registry : Registry) (j : String) (u : Job → Job) : Registry :=
  if (lookupJob registry j).isSome then
    registry.map fun kv => if kv.1 = j then (kv.1, u kv.2) else kv
  else registry

/-- The `/start-job` route (app.py lines 328-348).  The form fields are
stripped; a missing field, an unparseable date, or a start date after the
end date aborts with 400 before any `JOBS` entry is made; otherwise a fresh
job record in state `queued` with progress 0 is inserted and its id
returned. -/
def start_job (registry : Registry) (newId : String) (now : Int)
    (sub s e : String) : Registry × Option String :=
  let subT := pyStrip sub.data
  let sT := pyStrip s.data
  let eT := pyStrip e.data
  if subT = [] ∨ sT = [] ∨ eT = [] then (registry, none)
  else
    match parse_date sT, parse_date eT with
    | some d1, some d2 =>
      if dateLtB d2 d1 then (registry, none)
      else
        (registry ++ [(newId,
          { state := "queued", progress := 0, message := "Queued",
            filename := none, created_at := now })], some newId)
    | _, _ => (registry, none)

/-- The `/job-status/<j>` route (app.py lines 350-357): `none` is the 404
`not_found` answer; otherwise the job record together with a download URL
exactly when the job's state is `done` and its `filename` field is set and
truthy. -/
def job_status (registry : Registry) (j : String) :
    Option (Job × Option String) :=
  match lookupJob registry j with
  | none => none
  | some job =>
    some (job,
      if job.state = "done" ∧ job.filename.getD "" ≠ "" then
        some ("/download/" ++ j)
      else none)

/-- The `/download/<job_id>` route (app.py lines 359-372): 404 (`none`)
unless the job exists, is done and its file is still on disk; otherwise the
file is served. -/
def download_job (registry : Registry) (fileOnDisk : String → Bool)
    (j : String) : Option String :=
  match lookupJob registry j with
  | none => none
  | some job =>
    if job.state = "done" ∧ fileOnDisk (job.filename.getD "") then
      job.filename
    else none

/-- The retention sweep `cleanup` (app.py lines 374-385): every job whose
age exceeds `JOB_RETENTION_SECONDS` is removed from the registry (and its
file deleted from disk). -/
def cleanup (now : Int) (registry : Registry) : Registry :=
  registry.filter fun kv =>
    decide (now - kv.2.created_at ≤ JOB_RETENTION_SECONDS)

/-! ### Concrete fixtures used by witnesses and counterexamples -/

/-- A concrete hydrated submission. -/
def subFix : Submission :=
  { id := "a", title := "t", selftext := "s", url := "u", author := "au",
    score := 1, commentsResult := some [] }

/-- A concrete hydration oracle: id `"a"` hydrates, everything else fails. -/
def hydFix : String → Option Submission :=
  fun x => if x = "a" then some subFix else none

/-- A concrete finished job entry. -/
def jobDoneFix : Job :=
  { state := "done", progress := 100, message := "ok",
    filename := some "f.csv", created_at := 0 }

/-- A concrete expired job entry. -/
def jobOldFix : Job :=
  { state := "done", progress := 100, message := "ok",
    filename := some "g.csv", created_at := 0 }

/-- A concrete one-job registry. -/
def registryFix : Registry := [("a", jobDoneFix)]

/-- A concrete filesystem: only `f.csv` exists. -/
def fodFix : String → Bool := fun fn => fn == "f.csv"

/-! ### Lemmas about the engine loops -/

example :
    iter_pushshift_ids_daily_anchored [] 0 50000 1000 2 =
      { yields := [], emptyDays := 1, totalDays := 1, cappedEnd := false } := by
  decide

example : parse_date "2024-02-29".data = some ⟨2024, 2, 29⟩ := by decide
example : parse_date "2023-02-29".data = none := by decide
example : parse_date "2023-2-9".data = some ⟨2023, 2, 9⟩ := by decide
example : parse_date "23-02-09".data = none := by decide
example : parse_date "2023-02-09x".data = none := by decide


theorem psProcessItems_success_mono (ds ce : Int) (m : Nat) :
    ∀ (items : List RawItem) (st : EngSt), st.success = true →
      (psProcessItems ds ce m items st).success = true := by
  intro items
  induction items with
  | nil => intro st h; simpa [psProcessItems] using h
  | cons d rest ih =>
    intro st h
    simp only [psProcessItems]
    split_ifs with h1 h2 h3 h4
    · exact ih st h
    · exact ih st h
    · exact ih st h
    · rfl
    · exact ih _ rfl

theorem psProcessItems_success_false (ds ce : Int) (m : Nat)
    (items : List RawItem) (st : EngSt)
    (h : (psProcessItems ds ce m items st).success = false) :
    st.success = false := by
  cases hs : st.success
  · rfl
  · rw [psProcessItems_success_mono ds ce m items st hs] at h
    exact absurd h (by simp)

theorem psProcessItems_of_not_success (ds ce : Int) (m : Nat) :
    ∀ (items : List RawItem) (st : EngSt),
      (psProcessItems ds ce m items st).success = false →
      psProcessItems ds ce m items st = st := by
  intro items
  induction items with
  | nil => intro st _; simp [psProcessItems]
  | cons d rest ih =>
    intro st h
    simp only [psProcessItems] at h ⊢
    split_ifs at h ⊢ with h1 h2 h3 h4
    · exact ih st h
    · exact ih st h
    · exact ih st h
    · have := psProcessItems_success_false ds ce m rest _ h
      simp at this

theorem psProcessItems_ext (ds ce : Int) (m : Nat) :
    ∀ (items : List RawItem) (st : EngSt), ∃ Δ,
      (psProcessItems ds ce m items st).yields = st.yields ++ Δ ∧
      (∀ x ∈ st.seen, x ∈ (psProcessItems ds ce m items st).seen) ∧
      (Δ.map Prod.fst).Nodup ∧
      (∀ p ∈ Δ, p.1 ∈ (psProcessItems ds ce m items st).seen ∧
        p.1 ∉ st.seen ∧ ds ≤ p.2 ∧ p.2 ≤ ce) := by
  intro items
  induction items with
  | nil =>
    intro st
    exact ⟨[], by simp [psProcessItems]⟩
  | cons d rest ih =>
    intro st
    simp only [psProcessItems]
    split_ifs with h1 h2 h3 h4
    · exact ih st
    · exact ih st
    · exact ih st
    · refine ⟨[(d.id.getD "", d.created_utc.getD 0)], by simp, ?_, by simp, ?_⟩
      · intro x hx
        exact List.mem_cons_of_mem _ hx
      · intro p hp
        rw [List.mem_singleton] at hp
        subst hp
        refine ⟨List.mem_cons_self _ _, h3, ?_, ?_⟩ <;> omega
    · obtain ⟨Δ, hy, hseen, hnd, hprops⟩ := ih _
      refine ⟨(d.id.getD "", d.created_utc.getD 0) :: Δ, ?_, ?_, ?_, ?_⟩
      · rw [hy]; simp
      · intro x hx
        exact hseen x (List.mem_cons_of_mem _ hx)
      · rw [List.map_cons, List.nodup_cons]
        refine ⟨?_, hnd⟩
        intro hmem
        rw [List.mem_map] at hmem
        obtain ⟨p, hp, hfst⟩ := hmem
        have := (hprops p hp).2.1
        rw [hfst] at this
        exact this (List.mem_cons_self _ _)
      · intro p hp
        rcases List.mem_cons.mp hp with hp | hp
        · subst hp
          refine ⟨hseen _ (List.mem_cons_self _ _), h3, ?_, ?_⟩ <;> omega
        · obtain ⟨hin, hnotin, hlo, hhi⟩ := hprops p hp
          refine ⟨hin, fun hm => hnotin (List.mem_cons_of_mem _ hm), hlo, hhi⟩

theorem psProcessItems_emitted_le (ds ce : Int) (m : Nat) :
    ∀ (items : List RawItem) (st : EngSt), st.emitted < m →
      (psProcessItems ds ce m items st).emitted ≤ m := by
  intro items
  induction items with
  | nil => intro st h; simp [psProcessItems]; omega
  | cons d rest ih =>
    intro st h
    simp only [psProcessItems]
    split_ifs with h1 h2 h3 h4
    · exact ih st h
    · exact ih st h
    · exact ih st h
    · simpa using h
    · exact ih _ (by simpa using lt_of_not_le (by simpa using h4))

theorem psPageLoop_success_mono (ds ce : Int) (m : Nat) :
    ∀ (pages : List Page) (cursor : Int) (st : EngSt), st.success = true →
      ((psPageLoop ds ce m pages cursor st).1).success = true := by
  intro pages
  induction pages with
  | nil =>
    intro cursor st h
    simp only [psPageLoop]
    split_ifs <;> exact h
  | cons p ps ih =>
    intro cursor st h
    simp only [psPageLoop]
    have hs1 : (psProcessItems ds ce m p { st with newCnt := 0 }).success = true :=
      psProcessItems_success_mono ds ce m p _ h
    split_ifs with hg hp hc hn <;>
      first
        | exact h
        | exact hs1
        | (split <;> first | exact hs1 | exact ih _ _ hs1)

theorem psPageLoop_success_false (ds ce : Int) (m : Nat)
    (pages : List Page) (cursor : Int) (st : EngSt)
    (h : ((psPageLoop ds ce m pages cursor st).1).success = false) :
    st.success = false := by
  cases hs : st.success
  · rfl
  · rw [psPageLoop_success_mono ds ce m pages cursor st hs] at h
    exact absurd h (by simp)

theorem psPageLoop_of_not_success (ds ce : Int) (m : Nat)
    (pages : List Page) (cursor : Int) (st : EngSt)
    (h : ((psPageLoop ds ce m pages cursor st).1).success = false) :
    ((psPageLoop ds ce m pages cursor st).1 = st ∨
      (psPageLoop ds ce m pages cursor st).1 = { st with newCnt := 0 }) ∧
    (psPageLoop ds ce m pages cursor st).2.2 = cursor := by
  cases pages with
  | nil =>
    simp only [psPageLoop]
    split_ifs <;> exact ⟨Or.inl rfl, rfl⟩
  | cons p ps =>
    simp only [psPageLoop] at h ⊢
    split_ifs at h ⊢ with hg hp hc hn
    · exact ⟨Or.inl rfl, rfl⟩
    · exact ⟨Or.inl rfl, rfl⟩
    · exact ⟨Or.inr (psProcessItems_of_not_success ds ce m p _ h), rfl⟩
    · split at h <;> rename_i heq <;> simp only [heq] <;>
        exact ⟨Or.inr (psProcessItems_of_not_success ds ce m p _ h), by trivial⟩
    · split at h
      · rename_i heq
        simp only [heq]
        exact ⟨Or.inr (psProcessItems_of_not_success ds ce m p _ h), by trivial⟩
      · rename_i mv heq
        exfalso
        cases hs1 : (psProcessItems ds ce m p { st with newCnt := 0 }).success
        · have hid := psProcessItems_of_not_success ds ce m p _ hs1
          rw [hid] at hn
          exact hn rfl
        · rw [psPageLoop_success_mono ds ce m ps _ _ hs1] at h
          exact absurd h (by simp)

theorem psProcessItems_emitted_yields (ds ce : Int) (m : Nat) :
    ∀ (items : List RawItem) (st : EngSt),
      st.emitted = st.yields.length →
      (psProcessItems ds ce m items st).emitted =
        (psProcessItems ds ce m items st).yields.length := by
  intro items
  induction items with
  | nil => intro st h; simpa [psProcessItems] using h
  | cons d rest ih =>
    intro st h
    simp only [psProcessItems]
    split_ifs with h1 h2 h3 h4
    · exact ih st h
    · exact ih st h
    · exact ih st h
    · simp [h]
    · exact ih _ (by simp [h])

theorem psPageLoop_ext (ds ce : Int) (m : Nat) :
    ∀ (pages : List Page) (cursor : Int) (st : EngSt), ∃ Δ,
      ((psPageLoop ds ce m pages cursor st).1).yields = st.yields ++ Δ ∧
      (∀ x ∈ st.seen, x ∈ ((psPageLoop ds ce m pages cursor st).1).seen) ∧
      (Δ.map Prod.fst).Nodup ∧
      (∀ p ∈ Δ, p.1 ∈ ((psPageLoop ds ce m pages cursor st).1).seen ∧
        p.1 ∉ st.seen ∧ ds ≤ p.2 ∧ p.2 ≤ ce) := by
  intro pages
  induction pages with
  | nil =>
    intro cursor st
    refine ⟨[], ?_⟩
    simp only [psPageLoop]
    split_ifs <;> simp
  | cons p ps ih =>
    intro cursor st
    simp only [psPageLoop]
    split_ifs with hg hp hc hn
    · exact ⟨[], by simp⟩
    · exact ⟨[], by simp⟩
    · exact psProcessItems_ext ds ce m p _
    · split
      · exact psProcessItems_ext ds ce m p _
      · exact psProcessItems_ext ds ce m p _
    · split
      · exact psProcessItems_ext ds ce m p _
      · rename_i mv heq
        obtain ⟨Δ1, hy1, hs1, hn1, hp1⟩ := psProcessItems_ext ds ce m p
          { st with newCnt := 0 }
        obtain ⟨Δ2, hy2, hs2, hn2, hp2⟩ := ih (mv - 1)
          (psProcessItems ds ce m p { st with newCnt := 0 })
        refine ⟨Δ1 ++ Δ2, ?_, ?_, ?_, ?_⟩
        · rw [hy2, hy1]; simp [List.append_assoc]
        · intro x hx
          exact hs2 x (hs1 x hx)
        · rw [List.map_append]
          refine List.Nodup.append hn1 hn2 ?_
          rw [List.disjoint_left]
          intro a ha1 ha2
          rw [List.mem_map] at ha1 ha2
          obtain ⟨q1, hq1, hfst1⟩ := ha1
          obtain ⟨q2, hq2, hfst2⟩ := ha2
          have h1 := (hp1 q1 hq1).1
          have h2 := (hp2 q2 hq2).2.1
          rw [hfst1] at h1
          rw [hfst2] at h2
          exact h2 h1
        · intro q hq
          rcases List.mem_append.mp hq with hq | hq
          · obtain ⟨hin, hout, hlo, hhi⟩ := hp1 q hq
            exact ⟨hs2 _ hin, hout, hlo, hhi⟩
          · obtain ⟨hin, hout, hlo, hhi⟩ := hp2 q hq
            exact ⟨hin, fun hmem => hout (hs1 _ hmem), hlo, hhi⟩

theorem psPageLoop_emitted_le (ds ce : Int) (m : Nat) :
    ∀ (pages : List Page) (cursor : Int) (st : EngSt), st.emitted ≤ m →
      ((psPageLoop ds ce m pages cursor st).1).emitted ≤ m := by
  intro pages
  induction pages with
  | nil =>
    intro cursor st h
    simp only [psPageLoop]
    split_ifs <;> exact h
  | cons p ps ih =>
    intro cursor st h
    simp only [psPageLoop]
    split_ifs with hg hp hc hn
    · exact h
    · exact h
    · exact psProcessItems_emitted_le ds ce m p _ (by push_neg at hg; exact hg.1)
    · split <;> exact psProcessItems_emitted_le ds ce m p _ (by push_neg at hg; exact hg.1)
    · split
      · exact psProcessItems_emitted_le ds ce m p _ (by push_neg at hg; exact hg.1)
      · exact ih _ _ (psProcessItems_emitted_le ds ce m p _ (by push_neg at hg; exact hg.1))

theorem psPageLoop_emitted_yields (ds ce : Int) (m : Nat) :
    ∀ (pages : List Page) (cursor : Int) (st : EngSt),
      st.emitted = st.yields.length →
      ((psPageLoop ds ce m pages cursor st).1).emitted =
        ((psPageLoop ds ce m pages cursor st).1).yields.length := by
  intro pages
  induction pages with
  | nil =>
    intro cursor st h
    simp only [psPageLoop]
    split_ifs <;> exact h
  | cons p ps ih =>
    intro cursor st h
    simp only [psPageLoop]
    split_ifs with hg hp hc hn
    · exact h
    · exact h
    · exact psProcessItems_emitted_yields ds ce m p _ h
    · split <;> exact psProcessItems_emitted_yields ds ce m p _ h
    · split
      · exact psProcessItems_emitted_yields ds ce m p _ h
      · exact ih _ _ (psProcessItems_emitted_yields ds ce m p _ h)

theorem psAttemptLoop_ext (ds ce : Int) (m : Nat) :
    ∀ (n : Nat) (pages : List Page) (cursor : Int) (st : EngSt), ∃ Δ,
      ((psAttemptLoop ds ce m n pages cursor st).1).yields = st.yields ++ Δ ∧
      (Δ.map Prod.fst).Nodup ∧
      (∀ p ∈ Δ, ds ≤ p.2 ∧ p.2 ≤ ce) := by
  intro n
  induction n with
  | zero =>
    intro pages cursor st
    exact ⟨[], by simp [psAttemptLoop]⟩
  | succ k ih =>
    intro pages cursor st
    simp only [psAttemptLoop]
    obtain ⟨Δ1, hy1, _, hn1, hp1⟩ := psPageLoop_ext ds ce m pages cursor
      { st with minSeen := none, seen := [] }
    split_ifs with hcap hsucc
    · exact ⟨Δ1, hy1, hn1, fun p hp => ⟨(hp1 p hp).2.2.1, (hp1 p hp).2.2.2⟩⟩
    · exact ⟨Δ1, hy1, hn1, fun p hp => ⟨(hp1 p hp).2.2.1, (hp1 p hp).2.2.2⟩⟩
    · obtain ⟨hdisj, _⟩ := psPageLoop_of_not_success ds ce m pages cursor
        { st with minSeen := none, seen := [] }
        (by exact Bool.not_eq_true _ ▸ (by simpa using hsucc))
      obtain ⟨Δ2, hy2, hn2, hp2⟩ := ih _ _
        ((psPageLoop ds ce m pages cursor { st with minSeen := none, seen := [] }).1)
      refine ⟨Δ2, ?_, hn2, hp2⟩
      rw [hy2]
      rcases hdisj with hdisj | hdisj <;> rw [hdisj]

theorem psAttemptLoop_emitted_le (ds ce : Int) (m : Nat) :
    ∀ (n : Nat) (pages : List Page) (cursor : Int) (st : EngSt),
      st.emitted ≤ m →
      ((psAttemptLoop ds ce m n pages cursor st).1).emitted ≤ m := by
  intro n
  induction n with
  | zero => intro pages cursor st h; simpa [psAttemptLoop] using h
  | succ k ih =>
    intro pages cursor st h
    simp only [psAttemptLoop]
    have hpl : ((psPageLoop ds ce m pages cursor
        { st with minSeen := none, seen := [] }).1).emitted ≤ m :=
      psPageLoop_emitted_le ds ce m pages cursor _ h
    split_ifs with hcap hsucc
    · exact hpl
    · exact hpl
    · exact ih _ _ _ hpl

theorem psAttemptLoop_emitted_yields (ds ce : Int) (m : Nat) :
    ∀ (n : Nat) (pages : List Page) (cursor : Int) (st : EngSt),
      st.emitted = st.yields.length →
      ((psAttemptLoop ds ce m n pages cursor st).1).emitted =
        ((psAttemptLoop ds ce m n pages cursor st).1).yields.length := by
  intro n
  induction n with
  | zero => intro pages cursor st h; simpa [psAttemptLoop] using h
  | succ k ih =>
    intro pages cursor st h
    simp only [psAttemptLoop]
    have hpl := psPageLoop_emitted_yields ds ce m pages cursor
      { st with minSeen := none, seen := [] } h
    split_ifs with hcap hsucc
    · exact hpl
    · exact hpl
    · exact ih _ _ _ hpl

theorem psChunkLoop_ext (after : Int) (m attempts : Nat) :
    ∀ (fuel : Nat) (pages : List Page) (ce : Int) (st : EngSt), ∃ Δ,
      ((psChunkLoop after m attempts fuel pages ce st).1).yields =
        st.yields ++ Δ ∧
      ∀ p ∈ Δ, after ≤ p.2 ∧ p.2 ≤ ce := by
  intro fuel
  induction fuel with
  | zero => intro pages ce st; exact ⟨[], by simp [psChunkLoop]⟩
  | succ k ih =>
    intro pages ce st
    simp only [psChunkLoop]
    set ds := max after (ce - DAILY_CHUNK_SECONDS + 1) with hds
    set r := psAttemptLoop ds ce m attempts pages ce
      { st with totalDays := st.totalDays + 1, success := false } with hrr
    have hext := psAttemptLoop_ext ds ce m attempts pages ce
      { st with totalDays := st.totalDays + 1, success := false }
    rw [← hrr] at hext
    obtain ⟨Δ1, hy1, _, hp1⟩ := hext
    split_ifs with hg hcap hsucc
    · exact ⟨[], by simp⟩
    · refine ⟨Δ1, hy1, fun p hp => ⟨?_, (hp1 p hp).2⟩⟩
      exact le_trans (le_max_left _ _) ((hp1 p hp).1)
    · have hone : (1 : Int) ≤ DAILY_CHUNK_SECONDS := by
        norm_num [DAILY_CHUNK_SECONDS]
      push_neg at hg
      have hdsce : ds ≤ ce := by
        rw [hds]; exact max_le hg.1 (by omega)
      obtain ⟨Δ2, hy2, hp2⟩ := ih r.2.1 (ds - 1) r.1
      refine ⟨Δ1 ++ Δ2, ?_, ?_⟩
      · rw [hy2, hy1]
        show (st.yields ++ Δ1) ++ Δ2 = st.yields ++ (Δ1 ++ Δ2)
        rw [List.append_assoc]
      · intro p hp
        rcases List.mem_append.mp hp with hp | hp
        · exact ⟨le_trans (le_max_left _ _) ((hp1 p hp).1), (hp1 p hp).2⟩
        · obtain ⟨hlo, hhi⟩ := hp2 p hp
          exact ⟨hlo, by omega⟩
    · have hone : (1 : Int) ≤ DAILY_CHUNK_SECONDS := by
        norm_num [DAILY_CHUNK_SECONDS]
      push_neg at hg
      have hdsce : ds ≤ ce := by
        rw [hds]; exact max_le hg.1 (by omega)
      obtain ⟨Δ2, hy2, hp2⟩ := ih r.2.1 (ds - 1)
        { r.1 with emptyDays := r.1.emptyDays + 1 }
      refine ⟨Δ1 ++ Δ2, ?_, ?_⟩
      · rw [hy2]
        show r.1.yields ++ Δ2 = st.yields ++ (Δ1 ++ Δ2)
        rw [hy1]
        show (st.yields ++ Δ1) ++ Δ2 = st.yields ++ (Δ1 ++ Δ2)
        rw [List.append_assoc]
      · intro p hp
        rcases List.mem_append.mp hp with hp | hp
        · exact ⟨le_trans (le_max_left _ _) ((hp1 p hp).1), (hp1 p hp).2⟩
        · obtain ⟨hlo, hhi⟩ := hp2 p hp
          exact ⟨hlo, by omega⟩

theorem psChunkLoop_emitted_le (after : Int) (m attempts : Nat) :
    ∀ (fuel : Nat) (pages : List Page) (ce : Int) (st : EngSt),
      st.emitted ≤ m →
      ((psChunkLoop after m attempts fuel pages ce st).1).emitted ≤ m := by
  intro fuel
  induction fuel with
  | zero => intro pages ce st h; simpa [psChunkLoop] using h
  | succ k ih =>
    intro pages ce st h
    simp only [psChunkLoop]
    set ds := max after (ce - DAILY_CHUNK_SECONDS + 1) with hds
    set r := psAttemptLoop ds ce m attempts pages ce
      { st with totalDays := st.totalDays + 1, success := false } with hrr
    have hal : (r.1).emitted ≤ m := by
      rw [hrr]
      exact psAttemptLoop_emitted_le ds ce m attempts pages ce _ h
    split_ifs with hg hcap hsucc
    · exact h
    · exact hal
    · exact ih _ _ _ hal
    · exact ih _ _ _ hal

theorem psChunkLoop_emitted_yields (after : Int) (m attempts : Nat) :
    ∀ (fuel : Nat) (pages : List Page) (ce : Int) (st : EngSt),
      st.emitted = st.yields.length →
      ((psChunkLoop after m attempts fuel pages ce st).1).emitted =
        ((psChunkLoop after m attempts fuel pages ce st).1).yields.length := by
  intro fuel
  induction fuel with
  | zero => intro pages ce st h; simpa [psChunkLoop] using h
  | succ k ih =>
    intro pages ce st h
    simp only [psChunkLoop]
    set ds := max after (ce - DAILY_CHUNK_SECONDS + 1) with hds
    set r := psAttemptLoop ds ce m attempts pages ce
      { st with totalDays := st.totalDays + 1, success := false } with hrr
    have hal : (r.1).emitted = (r.1).yields.length := by
      rw [hrr]
      exact psAttemptLoop_emitted_yields ds ce m attempts pages ce _ h
    split_ifs with hg hcap hsucc
    · exact h
    · exact hal
    · exact ih _ _ _ hal
    · exact ih _ _ _ hal

theorem psChunkLoop_fuel_stable (after : Int) (m attempts : Nat) :
    ∀ (f1 f2 : Nat) (pages : List Page) (ce : Int) (st : EngSt),
      (ce + 1 - after).toNat ≤ f1 → (ce + 1 - after).toNat ≤ f2 →
      psChunkLoop after m attempts f1 pages ce st =
        psChunkLoop after m attempts f2 pages ce st := by
  intro f1
  induction f1 with
  | zero =>
    intro f2 pages ce st h1 h2
    have hce : ce < after := by omega
    cases f2 with
    | zero => rfl
    | succ g2 =>
      simp only [psChunkLoop]
      rw [if_pos (Or.inl hce)]
  | succ g1 ih =>
    intro f2 pages ce st h1 h2
    by_cases hce : ce < after
    · cases f2 with
      | zero =>
        simp only [psChunkLoop]
        rw [if_pos (Or.inl hce)]
      | succ g2 =>
        simp only [psChunkLoop]
        rw [if_pos (Or.inl hce), if_pos (Or.inl hce)]
    · have hb : 1 ≤ (ce + 1 - after).toNat := by omega
      cases f2 with
      | zero => omega
      | succ g2 =>
        simp only [psChunkLoop]
        by_cases hg : ce < after ∨ m ≤ st.emitted
        · rw [if_pos hg, if_pos hg]
        · rw [if_neg hg, if_neg hg]
          set ds := max after (ce - DAILY_CHUNK_SECONDS + 1) with hds
          set r := psAttemptLoop ds ce m attempts pages ce
            { st with totalDays := st.totalDays + 1, success := false } with hrr
          have hone : (1 : Int) ≤ DAILY_CHUNK_SECONDS := by
            norm_num [DAILY_CHUNK_SECONDS]
          have hdsa : after ≤ ds := le_max_left _ _
          have hdsce : ds ≤ ce := max_le (by omega) (by omega)
          have hn1 : (ds - 1 + 1 - after).toNat ≤ g1 := by omega
          have hn2 : (ds - 1 + 1 - after).toNat ≤ g2 := by omega
          split_ifs with hcap hsucc
          · rfl
          · exact ih g2 _ _ _ hn1 hn2
          · exact ih g2 _ _ _ hn1 hn2

/-! ### Lemmas about the worker loop -/

theorem workerLoop_cap (hyd : String → Option Submission) (CAP : Nat)
    (incl : Bool) :
    ∀ (ids : List (String × Int)) (st : WSt),
      st.count < CAP →
      CAP ≤ (workerLoop hyd CAP incl ids st).count →
      (workerLoop hyd CAP incl ids st).capHit = true ∧
      (workerLoop hyd CAP incl ids st).broke = true := by
  intro ids
  induction ids with
  | nil =>
    intro st h hc
    simp only [workerLoop] at hc
    omega
  | cons x rest ih =>
    intro st h hc
    obtain ⟨sid, cu⟩ := x
    cases hh : hyd sid with
    | none =>
      simp only [workerLoop, hh] at hc ⊢
      exact ih st h hc
    | some s =>
      simp only [workerLoop, hh] at hc ⊢
      split_ifs at hc ⊢ <;>
        first
          | exact ⟨rfl, rfl⟩
          | exact ih _ (lt_of_not_le ‹¬CAP ≤ st.count + 1›) hc

theorem workerLoop_trace (hyd : String → Option Submission) (CAP : Nat)
    (incl : Bool) :
    ∀ (ids : List (String × Int)) (st : WSt),
      st.trace ≠ [] →
      List.Chain' (· ≤ ·) st.trace →
      st.trace.getLast? = some st.progress →
      st.progress ≤ min 99 (st.count * 100 / CAP) →
      (∀ v ∈ st.trace, v ≤ 99) →
      ((workerLoop hyd CAP incl ids st).trace ≠ [] ∧
        List.Chain' (· ≤ ·) (workerLoop hyd CAP incl ids st).trace ∧
        (workerLoop hyd CAP incl ids st).trace.getLast? =
          some (workerLoop hyd CAP incl ids st).progress ∧
        (workerLoop hyd CAP incl ids st).progress ≤
          min 99 ((workerLoop hyd CAP incl ids st).count * 100 / CAP) ∧
        (∀ v ∈ (workerLoop hyd CAP incl ids st).trace, v ≤ 99)) := by
  intro ids
  induction ids with
  | nil =>
    intro st hne hch hlast hprog hall
    simp only [workerLoop]
    exact ⟨hne, hch, hlast, hprog, hall⟩
  | cons x rest ih =>
    intro st hne hch hlast hprog hall
    obtain ⟨sid, cu⟩ := x
    cases hh : hyd sid with
    | none =>
      simp only [workerLoop, hh]
      exact ih st hne hch hlast hprog hall
    | some s =>
      simp only [workerLoop, hh]
      have hmono : st.count * 100 / CAP ≤ (st.count + 1) * 100 / CAP :=
        Nat.div_le_div_right (by omega)
      have hminmono : min 99 (st.count * 100 / CAP) ≤
          min 99 ((st.count + 1) * 100 / CAP) :=
        min_le_min (le_refl _) hmono
      have hple : st.progress ≤ min 99 ((st.count + 1) * 100 / CAP) :=
        le_trans hprog hminmono
      have hp99 : min 99 ((st.count + 1) * 100 / CAP) ≤ 99 := min_le_left _ _
      have hne1 : st.trace ++ [min 99 ((st.count + 1) * 100 / CAP)] ≠ [] := by
        simp
      have hb1 : List.Chain' (· ≤ ·)
          (st.trace ++ [min 99 ((st.count + 1) * 100 / CAP)]) := by
        rw [List.chain'_append]
        refine ⟨hch, List.chain'_singleton _, ?_⟩
        intro x hx y hy
        rw [hlast] at hx
        simp only [Option.mem_def, Option.some.injEq] at hx
        simp only [List.head?_cons, Option.mem_def, Option.some.injEq] at hy
        rw [← hx, ← hy]
        exact hple
      have hc1 : (st.trace ++ [min 99 ((st.count + 1) * 100 / CAP)]).getLast? =
          some (min 99 ((st.count + 1) * 100 / CAP)) := by
        simp
      have hd1 : min 99 ((st.count + 1) * 100 / CAP) ≤
          min 99 ((st.count + 1) * 100 / CAP) := le_refl _
      have he1 : ∀ v ∈ st.trace ++ [min 99 ((st.count + 1) * 100 / CAP)],
          v ≤ 99 := by
        intro v hv
        rcases List.mem_append.mp hv with hv | hv
        · exact hall v hv
        · rw [List.mem_singleton] at hv
          omega
      split_ifs with hmod <;>
        first
          | exact ⟨hne1, hb1, hc1, hd1, he1⟩
          | exact ⟨hne, hch, hlast, hple, hall⟩
          | exact ih _ hne1 hb1 hc1 hd1 he1
          | exact ih _ hne hch hlast hple hall

theorem write_submission_with_comments_post_id (s : Submission) (ts : String) :
    ∀ r ∈ write_submission_with_comments s ts, r.post_id = s.id := by
  intro r hr
  unfold write_submission_with_comments at hr
  split at hr
  · rw [List.mem_singleton] at hr; subst hr; rfl
  · split_ifs at hr with he
    · rw [List.mem_singleton] at hr; subst hr; rfl
    · rw [List.mem_map] at hr
      obtain ⟨c, _, hc⟩ := hr
      rw [← hc]; rfl

theorem workerLoop_skip (hyd : String → Option Submission) (CAP : Nat)
    (incl : Bool) :
    ∀ (ids : List (String × Int)) (st : WSt),
      workerLoop hyd CAP incl (ids.filter fun q => (hyd q.1).isSome) st =
        workerLoop hyd CAP incl ids st := by
  intro ids
  induction ids with
  | nil => intro st; rfl
  | cons x rest ih =>
    intro st
    obtain ⟨xid, xcu⟩ := x
    cases hh : hyd xid with
    | none =>
      have hfc : ((xid, xcu) :: rest).filter (fun q => (hyd q.1).isSome) =
          rest.filter fun q => (hyd q.1).isSome := by
        simp [List.filter_cons, hh]
      rw [hfc, ih]
      simp only [workerLoop, hh]
    | some s =>
      have hfc : ((xid, xcu) :: rest).filter (fun q => (hyd q.1).isSome) =
          (xid, xcu) :: rest.filter fun q => (hyd q.1).isSome := by
        simp [List.filter_cons, hh]
      rw [hfc]
      simp only [workerLoop, hh]
      by_cases hcap : CAP ≤ st.count + 1
      · rw [if_pos hcap, if_pos hcap]
      · rw [if_neg hcap, if_neg hcap]
        exact ih _

theorem workerLoop_rows (hyd : String → Option Submission) (CAP : Nat)
    (incl : Bool) :
    ∀ (ids : List (String × Int)) (st : WSt) (sid : String),
      hyd sid = none →
      (∀ q ∈ ids, ∀ s, hyd q.1 = some s → s.id = q.1) →
      ∀ r ∈ (workerLoop hyd CAP incl ids st).rows,
        r ∈ st.rows ∨ r.post_id ≠ sid := by
  intro ids
  induction ids with
  | nil =>
    intro st sid hfail hwf r hr
    left
    simpa [workerLoop] using hr
  | cons x rest ih =>
    intro st sid hfail hwf r hr
    obtain ⟨xid, xcu⟩ := x
    cases hh : hyd xid with
    | none =>
      simp only [workerLoop, hh] at hr
      exact ih st sid hfail (fun q hq => hwf q (List.mem_cons_of_mem _ hq)) r hr
    | some s =>
      have hxid : s.id = xid := hwf (xid, xcu) (List.mem_cons_self _ _) s hh
      have hne : xid ≠ sid := by
        intro e
        rw [e, hfail] at hh
        exact Option.noConfusion hh
      have hnew : ∀ rr ∈ (if incl then
          write_submission_with_comments s (toString xcu)
          else [write_submission_row s (toString xcu)]), rr.post_id ≠ sid := by
        intro rr hrr
        split_ifs at hrr with hi
        · rw [write_submission_with_comments_post_id s _ rr hrr, hxid]
          exact hne
        · rw [List.mem_singleton] at hrr
          subst hrr
          show s.id ≠ sid
          rw [hxid]
          exact hne
      simp only [workerLoop, hh] at hr
      by_cases hcap : CAP ≤ st.count + 1
      · rw [if_pos hcap] at hr
        rcases List.mem_append.mp hr with hm | hm
        · exact Or.inl hm
        · exact Or.inr (hnew r hm)
      · rw [if_neg hcap] at hr
        rcases ih _ sid hfail (fun q hq => hwf q (List.mem_cons_of_mem _ hq))
            r hr with hm | hm
        · rcases List.mem_append.mp hm with hm2 | hm2
          · exact Or.inl hm2
          · exact Or.inr (hnew r hm2)
        · exact Or.inr hm

/-! ### Lemmas about the registry -/

theorem lookupJob_mem :
    ∀ (registry : Registry) (j : String) (job : Job),
      lookupJob registry j = some job → (j, job) ∈ registry := by
  intro registry
  induction registry with
  | nil => intro j job h; exact Option.noConfusion h
  | cons kv rest ih =>
    intro j job h
    obtain ⟨k, v⟩ := kv
    simp only [lookupJob] at h
    split_ifs at h with hk
    · rw [Option.some.injEq] at h
      subst hk
      subst h
      exact List.mem_cons_self _ _
    · exact List.mem_cons_of_mem _ (ih j job h)

theorem cleanup_lookup_none :
    ∀ (registry : Registry) (j : String) (now : Int),
      (∀ job, (j, job) ∈ registry →
        JOB_RETENTION_SECONDS < now - job.created_at) →
      lookupJob (cleanup now registry) j = none := by
  intro registry
  induction registry with
  | nil => intro j now _; rfl
  | cons kv rest ih =>
    intro j now h
    obtain ⟨k, v⟩ := kv
    simp only [cleanup, List.filter_cons]
    split_ifs with hk
    · simp only [lookupJob]
      split_ifs with hkj
      · exfalso
        subst hkj
        have := h v (List.mem_cons_self _ _)
        rw [decide_eq_true_iff] at hk
        omega
      · exact ih j now fun job hm => h job (List.mem_cons_of_mem _ hm)
    · exact ih j now fun job hm => h job (List.mem_cons_of_mem _ hm)

/-! ### The claims -/

/-- C1: the claim says the day-gap statistics recorded on the finished job
equal the engine's coverage summary.  The code contradicts it (and its own
comments at app.py lines 268-269 and 295-299): the worker's retrieval block
at lines 296-303 runs only when the consuming loop exited via `break`
(an exhausted generator's `gi_frame` is `None`), and in exactly that case
the generator ended through the bare cap `return` whose `StopIteration`
value is `None` — so the job always reports the initial `(0, 0)`.  At the
failing input below (a one-chunk window with an upstream that returns no
data) the engine computes `empty_days = 1, total_days = 1` and its
`StopIteration` value is `(1, 1)`, yet the finished job records `(0, 0)`;
at the second input (a cap-terminated run) the engine scanned one chunk but
the job again records `(0, 0)`. -/
theorem claim_C1_day_gap_stats_lost :
    (run_scrape_job [] (fun _ => none) 0 50000 1000 false 2).empty_days = 0 ∧
    (run_scrape_job [] (fun _ => none) 0 50000 1000 false 2).total_days = 0 ∧
    (iter_pushshift_ids_daily_anchored [] 0 50000 1000 2).emptyDays = 1 ∧
    (iter_pushshift_ids_daily_anchored [] 0 50000 1000 2).totalDays = 1 ∧
    summaryValue (iter_pushshift_ids_daily_anchored [] 0 50000 1000 2) =
      some (1, 1) ∧
    (run_scrape_job [[⟨some "a", some 50⟩]] hydFix 0 100 1 false 2).total_days
      = 0 ∧
    (iter_pushshift_ids_daily_anchored [[⟨some "a", some 50⟩]] 0 100 1 2
      ).totalDays = 1 ∧
    (iter_pushshift_ids_daily_anchored [[⟨some "a", some 50⟩]] 0 100 1 2
      ).cappedEnd = true := by
  decide

/-- C2: within one chunk every attempt starts from a fresh state.  The
source initialises `cursor_before_ts` once per chunk (app.py line 99) and
only `min_seen_ts`/`day_fetched_ids` per attempt (lines 104-105), but a
later attempt only runs when every earlier attempt yielded nothing, and the
cursor moves only after a yield — so the threaded loop, started at the
chunk's upper bound as `iter_pushshift_ids_daily_anchored` starts it, is
extensionally the spec's reset-each-attempt loop: every attempt begins with
the cursor at the chunk's upper bound and an empty seen-set. -/
theorem claim_C2_attempt_fresh_state (ds ce : Int) (m : Nat) :
    ∀ (n : Nat) (pages : List Page) (st : EngSt),
      (psAttemptLoop ds ce m n pages ce st).1 =
        (psAttemptLoopSpecReset ds ce m n pages st).1 ∧
      (psAttemptLoop ds ce m n pages ce st).2.1 =
        (psAttemptLoopSpecReset ds ce m n pages st).2 := by
  intro n
  induction n with
  | zero => intro pages st; exact ⟨rfl, rfl⟩
  | succ k ih =>
    intro pages st
    simp only [psAttemptLoop, psAttemptLoopSpecReset]
    split_ifs with hcap hsucc
    · exact ⟨rfl, rfl⟩
    · exact ⟨rfl, rfl⟩
    · have hsf : ((psPageLoop ds ce m pages ce
          { st with minSeen := none, seen := [] }).1).success = false := by
        simpa using hsucc
      obtain ⟨_, hcur⟩ := psPageLoop_of_not_success ds ce m pages ce
        { st with minSeen := none, seen := [] } hsf
      rw [hcur]
      exact ih _ _

/-- C3: the engine emits at most `max_results` items for every upstream
response stream, and in the worker the cap being reached (`count >= CAP`,
app.py line 291) sets `cap_hit` and takes the early `break`; the job's
recorded `cap_hit` field is exactly the worker loop's flag. -/
theorem claim_C3_cap_enforced (pages : List Page) (after_ts before_ts : Int)
    (max_results attempts : Nat) (hyd : String → Option Submission)
    (incl : Bool) :
    (iter_pushshift_ids_daily_anchored pages after_ts before_ts max_results
      attempts).yields.length ≤ max_results ∧
    (run_scrape_job pages hyd after_ts before_ts max_results incl
      attempts).cap_hit =
      (workerLoop hyd max_results incl
        (iter_pushshift_ids_daily_anchored pages after_ts before_ts
          max_results attempts).yields workerInit).capHit ∧
    (1 ≤ max_results →
      max_results ≤ (workerLoop hyd max_results incl
        (iter_pushshift_ids_daily_anchored pages after_ts before_ts
          max_results attempts).yields workerInit).count →
      (workerLoop hyd max_results incl
        (iter_pushshift_ids_daily_anchored pages after_ts before_ts
          max_results attempts).yields workerInit).capHit = true ∧
      (workerLoop hyd max_results incl
        (iter_pushshift_ids_daily_anchored pages after_ts before_ts
          max_results attempts).yields workerInit).broke = true) := by
  refine ⟨?_, rfl, ?_⟩
  · have h1 := psChunkLoop_emitted_le after_ts max_results attempts
      ((before_ts + 1 - after_ts).toNat) pages before_ts engInit
      (Nat.zero_le _)
    have h2 := psChunkLoop_emitted_yields after_ts max_results attempts
      ((before_ts + 1 - after_ts).toNat) pages before_ts engInit rfl
    show ((psChunkLoop after_ts max_results attempts
      ((before_ts + 1 - after_ts).toNat) pages before_ts engInit
      ).1).yields.length ≤ max_results
    rw [← h2]
    exact h1
  · intro hcap hc
    exact workerLoop_cap hyd max_results incl _ workerInit hcap hc

/-- Witness for `claim_C3_cap_enforced` at a concrete cap-hitting input. -/
theorem claim_C3_cap_enforced_witness :
    (iter_pushshift_ids_daily_anchored [[⟨some "a", some 50⟩]] 0 100 1 2
      ).yields.length ≤ 1 ∧
    ((workerLoop hydFix 1 false
        (iter_pushshift_ids_daily_anchored [[⟨some "a", some 50⟩]] 0 100 1 2
          ).yields workerInit).capHit = true ∧
      (workerLoop hydFix 1 false
        (iter_pushshift_ids_daily_anchored [[⟨some "a", some 50⟩]] 0 100 1 2
          ).yields workerInit).broke = true) :=
  ⟨(claim_C3_cap_enforced [[⟨some "a", some 50⟩]] 0 100 1 2 hydFix false).1,
    (claim_C3_cap_enforced [[⟨some "a", some 50⟩]] 0 100 1 2 hydFix
      false).2.2 (by decide) (by decide)⟩

/-- C4, counterexample: as stated the claim is false.  The seen-set
`day_fetched_ids` is created anew for every chunk (app.py line 105), so an
upstream response sequence that reports the same id in two different daily
chunks (with a timestamp inside each chunk) makes the engine yield that id
twice in one run: below, id `"a"` is yielded at 50000 in the first chunk
and again at 5000 in the second. -/
theorem claim_C4_counterexample :
    ((iter_pushshift_ids_daily_anchored
      [[⟨some "a", some 50000⟩], [], [⟨some "a", some 5000⟩]]
      0 100000 10 2).yields.map Prod.fst) = ["a", "a"] ∧
    ¬ ((iter_pushshift_ids_daily_anchored
      [[⟨some "a", some 50000⟩], [], [⟨some "a", some 5000⟩]]
      0 100000 10 2).yields.map Prod.fst).Nodup := by
  decide

/-- C4, amended: the dedup guarantee is per chunk, exactly the scope of
`day_fetched_ids`.  The attempt loop is the per-chunk processor (the chunk
loop calls it once per chunk), and across one whole chunk — every attempt
and every page — no id is ever yielded twice, so each discovered submission
is handed to hydration at most once per chunk. -/
theorem claim_C4_per_chunk_dedup (ds ce : Int) (m n : Nat)
    (pages : List Page) (cursor : Int) (st : EngSt) :
    ((((psAttemptLoop ds ce m n pages cursor st).1).yields.drop
      st.yields.length).map Prod.fst).Nodup := by
  obtain ⟨Δ, hy, hnd, _⟩ := psAttemptLoop_ext ds ce m n pages cursor st
  rw [hy, List.drop_left]
  exact hnd

/-- C5: every pair the engine yields has its timestamp inside the requested
window `[after_ts, before_ts]`: each chunk filters to
`[day_start_ts, current_end_ts]` (app.py line 139) and those bounds stay
inside the window as the chunks walk backward. -/
theorem claim_C5_window_respected (pages : List Page)
    (after_ts before_ts : Int) (max_results attempts : Nat) :
    ∀ p ∈ (iter_pushshift_ids_daily_anchored pages after_ts before_ts
      max_results attempts).yields,
      after_ts ≤ p.2 ∧ p.2 ≤ before_ts := by
  intro p hp
  obtain ⟨Δ, hy, hb⟩ := psChunkLoop_ext after_ts max_results attempts
    ((before_ts + 1 - after_ts).toNat) pages before_ts engInit
  have hy2 : (iter_pushshift_ids_daily_anchored pages after_ts before_ts
      max_results attempts).yields = Δ := by
    show ((psChunkLoop after_ts max_results attempts
      ((before_ts + 1 - after_ts).toNat) pages before_ts engInit
      ).1).yields = Δ
    rw [hy]
    rfl
  rw [hy2] at hp
  exact hb p hp

/-- Witness for `claim_C5_window_respected` at a concrete input. -/
theorem claim_C5_window_respected_witness :
    (0 : Int) ≤ 50 ∧ (50 : Int) ≤ 100 :=
  claim_C5_window_respected [[⟨some "a", some 50⟩]] 0 100 10 2 ("a", 50)
    (by decide)

/-- C6: over a job's lifetime the `progress` field holds, in order: 0 at
creation (app.py line 346), `min(99, floor(count / CAP * 100))` at every
tenth hydrated item (line 289), and 100 at the terminal done transition
(line 315).  That sequence is monotonically non-decreasing, every value
before the terminal one is at most 99, and 100 appears exactly as the final
done value. -/
theorem claim_C6_progress_monotone (pages : List Page)
    (hyd : String → Option Submission) (after_ts before_ts : Int)
    (CAP : Nat) (incl : Bool) (attempts : Nat) :
    List.Chain' (· ≤ ·)
      (run_scrape_job pages hyd after_ts before_ts CAP incl attempts).trace ∧
    (∀ v ∈ (run_scrape_job pages hyd after_ts before_ts CAP incl
      attempts).trace.dropLast, v ≤ 99) ∧
    (run_scrape_job pages hyd after_ts before_ts CAP incl
      attempts).trace.getLast? = some 100 := by
  obtain ⟨hne, hch, hlast, hprog, hall⟩ := workerLoop_trace hyd CAP incl
    (iter_pushshift_ids_daily_anchored pages after_ts before_ts CAP
      attempts).yields workerInit
    (by simp [workerInit]) (by simp [workerInit, List.chain'_singleton])
    (by simp [workerInit]) (by simp [workerInit]) (by simp [workerInit])
  have key : ∀ (W : WSt), List.Chain' (· ≤ ·) W.trace →
      W.trace.getLast? = some W.progress → W.progress ≤ 99 →
      (∀ v ∈ W.trace, v ≤ 99) →
      (List.Chain' (· ≤ ·) (W.trace ++ [100]) ∧
        (∀ v ∈ (W.trace ++ [100]).dropLast, v ≤ 99) ∧
        (W.trace ++ [100]).getLast? = some 100) := by
    intro W wch wlast wp99 wall
    refine ⟨?_, ?_, by simp⟩
    · rw [List.chain'_append]
      refine ⟨wch, List.chain'_singleton _, ?_⟩
      intro x hx y hy
      rw [wlast] at hx
      simp only [Option.mem_def, Option.some.injEq] at hx
      simp only [List.head?_cons, Option.mem_def, Option.some.injEq] at hy
      rw [← hx, ← hy]
      omega
    · rw [List.dropLast_concat]
      exact wall
  exact key _ hch hlast (le_trans hprog (min_le_left _ _)) hall

/-- C7: a submission whose community field strips to empty, whose dates do
not parse as `%Y-%m-%d`, or whose start date is after its end date is
rejected synchronously by `/start-job` (app.py lines 334-343): the registry
is returned unchanged and no job id is produced, so no Job record is ever
created. -/
theorem claim_C7_invalid_rejected (registry : Registry) (newId : String)
    (now : Int) (sub s e : String)
    (h : pyStrip sub.data = [] ∨ parse_date (pyStrip s.data) = none ∨
      parse_date (pyStrip e.data) = none ∨
      (∃ d1 d2, parse_date (pyStrip s.data) = some d1 ∧
        parse_date (pyStrip e.data) = some d2 ∧ dateLtB d2 d1 = true)) :
    start_job registry newId now sub s e = (registry, none) := by
  unfold start_job
  by_cases h0 : pyStrip sub.data = [] ∨ pyStrip s.data = [] ∨
      pyStrip e.data = []
  · rw [if_pos h0]
  · rw [if_neg h0]
    rcases h with h | h | h | ⟨d1, d2, h1, h2, h3⟩
    · exact absurd (Or.inl h) h0
    · cases hpe : parse_date (pyStrip e.data) <;> simp [h, hpe]
    · cases hps : parse_date (pyStrip s.data) <;> simp [h, hps]
    · rw [h1, h2]
      simp [h3]

/-- Witness for `claim_C7_invalid_rejected`: start date after end date. -/
theorem claim_C7_invalid_rejected_witness :
    start_job [] "j1" 0 "askreddit" "2024-05-02" "2024-05-01" = ([], none) :=
  claim_C7_invalid_rejected [] "j1" 0 "askreddit" "2024-05-02" "2024-05-01"
    (Or.inr (Or.inr (Or.inr
      ⟨⟨2024, 5, 2⟩, ⟨2024, 5, 1⟩, by decide, by decide, by decide⟩)))

/-- C8: assuming the invariant the worker maintains (a done job's record
has a non-empty filename whose file is on disk), an unknown job id gets the
distinct not-found outcome from both the observation and the download
interface, and for a registered job either interface yields a retrieval
reference exactly when the job's state is done. -/
theorem claim_C8_download_iff_done (registry : Registry)
    (fileOnDisk : String → Bool) (j : String)
    (hinv : ∀ k job, (k, job) ∈ registry → job.state = "done" →
      job.filename.getD "" ≠ "" ∧ fileOnDisk (job.filename.getD "") = true) :
    (lookupJob registry j = none →
      job_status registry j = none ∧
      download_job registry fileOnDisk j = none) ∧
    (∀ job, lookupJob registry j = some job →
      (((∃ u, job_status registry j = some (job, some u)) ↔
          job.state = "done") ∧
        ((download_job registry fileOnDisk j).isSome ↔
          job.state = "done"))) := by
  constructor
  · intro hl
    simp only [job_status, download_job, hl]
    exact ⟨by trivial, by trivial⟩
  · intro job hl
    have hmem := lookupJob_mem registry j job hl
    constructor
    · simp only [job_status, hl]
      constructor
      · rintro ⟨u, hu⟩
        rw [Option.some.injEq, Prod.mk.injEq] at hu
        obtain ⟨-, hu⟩ := hu
        by_cases hcond : job.state = "done" ∧ job.filename.getD "" ≠ ""
        · exact hcond.1
        · rw [if_neg hcond] at hu
          exact Option.noConfusion hu
      · intro hd
        have hf := hinv j job hmem hd
        exact ⟨"/download/" ++ j, by rw [if_pos ⟨hd, hf.1⟩]⟩
    · simp only [download_job, hl]
      constructor
      · intro hsome
        by_cases hcond : job.state = "done" ∧
            fileOnDisk (job.filename.getD "") = true
        · exact hcond.1
        · rw [if_neg hcond] at hsome
          exact absurd hsome (by simp)
      · intro hd
        have hf := hinv j job hmem hd
        rw [if_pos ⟨hd, hf.2⟩]
        cases hfn : job.filename with
        | none =>
          exfalso
          rw [hfn] at hf
          exact hf.1 rfl
        | some fn => simp

/-- Witness for `claim_C8_download_iff_done` at a concrete one-job
registry. -/
theorem claim_C8_download_iff_done_witness :
    ((∃ u, job_status registryFix "a" = some (jobDoneFix, some u)) ↔
      jobDoneFix.state = "done") ∧
    ((download_job registryFix fodFix "a").isSome ↔
      jobDoneFix.state = "done") :=
  (claim_C8_download_iff_done registryFix fodFix "a"
    (by
      intro k job hm hd
      simp only [registryFix, List.mem_singleton, Prod.mk.injEq] at hm
      obtain ⟨-, h2⟩ := hm
      subst h2
      exact ⟨by decide, by decide⟩)).2 jobDoneFix (by decide)

/-- C9: a discovered id whose hydration fails contributes nothing and
changes nothing.  Dropping every failing id from the enumeration leaves
the whole worker state (rows, count, cap flag, progress trace, coverage)
unchanged; no row carries a failed id as its post id; and the job still
finishes in the done state. -/
theorem claim_C9_hydration_failure_isolated
    (hyd : String → Option Submission) (CAP : Nat) (incl : Bool)
    (ids : List (String × Int)) (st : WSt) (sid : String)
    (hfail : hyd sid = none)
    (hwf : ∀ q ∈ ids, ∀ s, hyd q.1 = some s → s.id = q.1) :
    workerLoop hyd CAP incl (ids.filter fun q => (hyd q.1).isSome) st =
      workerLoop hyd CAP incl ids st ∧
    (∀ r ∈ (workerLoop hyd CAP incl ids st).rows,
      r ∈ st.rows ∨ r.post_id ≠ sid) ∧
    (∀ (pages : List Page) (after_ts before_ts : Int) (attempts : Nat),
      (run_scrape_job pages hyd after_ts before_ts CAP incl
        attempts).state = "done") :=
  ⟨workerLoop_skip hyd CAP incl ids st,
    workerLoop_rows hyd CAP incl ids st sid hfail hwf,
    fun _ _ _ _ => rfl⟩

/-- Witness for `claim_C9_hydration_failure_isolated`: id `"b"` fails to
hydrate and is skipped without affecting the run. -/
theorem claim_C9_hydration_failure_isolated_witness :
    workerLoop hydFix 5 false
      (([("a", 50), ("b", 40)] : List (String × Int)).filter
        fun q => (hydFix q.1).isSome) workerInit =
      workerLoop hydFix 5 false [("a", 50), ("b", 40)] workerInit :=
  (claim_C9_hydration_failure_isolated hydFix 5 false
    [("a", 50), ("b", 40)] workerInit "b" (by decide)
    (by
      intro q hq s hs
      rcases List.mem_cons.mp hq with rfl | hq2
      · have h0 : hydFix "a" = some subFix := by decide
        rw [h0, Option.some.injEq] at hs
        rw [← hs]
        rfl
      · rw [List.mem_singleton] at hq2
        subst hq2
        rw [(by decide : hydFix "b" = (none : Option Submission))] at hs
        exact Option.noConfusion hs)).1

/-- C10: `safe_set` with an id absent from the registry is a no-op — in
particular every state update from a worker whose job was already removed
by the retention sweep is silently discarded, and the sweep removes every
expired entry for the id. -/
theorem claim_C10_stale_update_discarded (registry : Registry) (j : String)
    (u : Job → Job) (now : Int)
    (h : ∀ job, (j, job) ∈ registry →
      JOB_RETENTION_SECONDS < now - job.created_at) :
    safe_set (cleanup now registry) j u = cleanup now registry ∧
    lookupJob (cleanup now registry) j = none ∧
    (∀ (reg2 : Registry), lookupJob reg2 j = none →
      safe_set reg2 j u = reg2) := by
  have habs : ∀ (reg2 : Registry), lookupJob reg2 j = none →
      safe_set reg2 j u = reg2 := by
    intro reg2 h2
    unfold safe_set
    rw [h2]
    rfl
  have hnone := cleanup_lookup_none registry j now h
  exact ⟨habs _ hnone, hnone, habs⟩

/-- Witness for `claim_C10_stale_update_discarded` at a concrete expired
job. -/
theorem claim_C10_stale_update_discarded_witness :
    safe_set (cleanup 10000 [("a", jobOldFix)]) "a" id =
      cleanup 10000 [("a", jobOldFix)] ∧
    lookupJob (cleanup 10000 [("a", jobOldFix)]) "a" = none :=
  ⟨(claim_C10_stale_update_discarded [("a", jobOldFix)] "a" id 10000
      (by
        intro job hm
        rw [List.mem_singleton] at hm
        rw [Prod.mk.injEq] at hm
        obtain ⟨-, h2⟩ := hm
        subst h2
        decide)).1,
    (claim_C10_stale_update_discarded [("a", jobOldFix)] "a" id 10000
      (by
        intro job hm
        rw [List.mem_singleton] at hm
        rw [Prod.mk.injEq] at hm
        obtain ⟨-, h2⟩ := hm
        subst h2
        decide)).2.1⟩
